import Mathlib

/-!
# allmark: the filesystem repository walker

A shallow embedding of `dataaccess/filesystem/repository.go`: the recursive
directory walk `indexItems`, the look-ahead `directoryDoesNotContainsItems`,
the three item constructors and the two event streams `Items` and `Changed`.

* A path is the list of its segments; `filepath.Join`, `filepath.Dir` and
  `filepath.Base` act on the last segment.
* The filesystem is a finite tree `Entries`; `fsutil.PathExists`,
  `fsutil.IsDirectory` and `ioutil.ReadDir` resolve a path in that tree.
  `ioutil.ReadDir` lists a directory in the order in which the tree stores
  the entries.
* Helpers of the package that the walker calls but that live in other files
  (`isReservedDirectory`, `isMarkdownFile`, `getFiles`, the `route` package)
  are fields of `Env`.
* The recursive Go functions follow paths, not subtrees, so they take a fuel
  argument and return `none` when it runs out; the theorems show that any fuel
  above the height of the walked directory gives a result.
* A channel is the record of what has been sent on it and whether it has been
  closed.
-/

namespace Allmark

/-! ## Paths -/

/-- A path, as the list of its segments below the filesystem root. -/
abbrev Path := List String

/-- Go `filepath.Join(dir, name)` for a single segment `name`. -/
def Path.join (dir : Path) (name : String) : Path := dir ++ [name]

/-- Go `filepath.Dir(path)`. -/
def Path.dir (path : Path) : Path := path.dropLast

/-- Go `filepath.Base(path)`; the base of the root is the separator. -/
def Path.base (path : Path) : String := path.getLastD "/"

/-! ## The filesystem -/

/-- The entries of one directory, in listing order; a directory entry carries
the entries of that directory. -/
inductive Entries where
  | nil
  | file (name : String) (rest : Entries)
  | dir (name : String) (sub : Entries) (rest : Entries)
  deriving DecidableEq, Repr

/-- What a path resolves to. -/
inductive Stat where
  | file
  | dir (entries : Entries)
  deriving DecidableEq, Repr

/-- One element of a directory listing (Go `os.FileInfo`: `Name()`, `IsDir()`). -/
structure DirEntry where
  name : String
  isDir : Bool
  deriving DecidableEq, Repr

/-- The listing of a directory. -/
def Entries.toList : Entries → List DirEntry
  | .nil => []
  | .file name rest => ⟨name, false⟩ :: rest.toList
  | .dir name _ rest => ⟨name, true⟩ :: rest.toList

/-- The first entry called `name`. -/
def Entries.find (name : String) : Entries → Option Stat
  | .nil => none
  | .file n rest => if n = name then some .file else rest.find name
  | .dir n sub rest => if n = name then some (.dir sub) else rest.find name

/-- Resolve a path, starting from the entries of the root directory. -/
def Entries.lookup : Entries → Path → Option Stat
  | es, [] => some (.dir es)
  | es, name :: more =>
    match es.find name with
    | some (.dir sub) => sub.lookup more
    | some .file => if more = [] then some .file else none
    | none => none

/-- Go `fsutil.PathExists`. -/
def pathExists (fs : Entries) (path : Path) : Bool :=
  (fs.lookup path).isSome

/-- Go `fsutil.IsDirectory` (the error result is dropped by every caller). -/
def isDirectory (fs : Entries) (path : Path) : Bool :=
  match fs.lookup path with
  | some (.dir _) => true
  | _ => false

/-- Go `ioutil.ReadDir`, with the error dropped as every caller does: a path
that is not a directory lists as empty. -/
def readDir (fs : Entries) (path : Path) : List DirEntry :=
  match fs.lookup path with
  | some (.dir es) => es.toList
  | _ => []

/-! ## Routes, items and events -/

/-- The errors the walker reports. -/
inductive Error where
  /-- The path does not exist. -/
  | pathDoesNotExist (path : Path)
  /-- The path is using a reserved name and cannot be an item. -/
  | reservedName (path : Path)
  /-- An item cannot be created for the path, with the cause. -/
  | cannotCreateItem (path : Path) (cause : Error)
  /-- An error of the route package: the path is not below the repository. -/
  | notInRepository (repositoryPath path : Path)
  deriving DecidableEq, Repr

/-- A route: the segments of a path relative to the repository root. -/
structure Route where
  segments : List String
  deriving DecidableEq, Repr

/-- The two content providers: backed by a file, or by a text. -/
inductive ContentProvider where
  | fileContent (path : Path) (route : Route)
  | textContent (content : String) (route : Route)
  deriving DecidableEq, Repr

/-- A file attached to an item. -/
structure File where
  route : Route
  contentProvider : ContentProvider
  deriving DecidableEq, Repr

/-- An item: route, content provider and attached files. -/
structure Item where
  route : Route
  contentProvider : ContentProvider
  files : List File
  deriving DecidableEq, Repr

/-- Go `dataaccess.RepositoryEvent`. -/
structure RepositoryEvent where
  item : Option Item
  error : Option Error
  deriving DecidableEq, Repr

/-- Go `dataaccess.NewEvent(item, err)`. -/
def NewEvent (item : Option Item) (err : Option Error) : RepositoryEvent :=
  ⟨item, err⟩

/-- The event `dataaccess.NewEvent(item, err)` for the pair `(item, err)` that
an item constructor returns: `(item, nil)` on success, `(nil, err)` on failure. -/
def eventOf : Except Error Item → RepositoryEvent
  | .ok item => NewEvent (some item) none
  | .error err => NewEvent none (some err)

/-- Modelled from the spec: `dataaccess.NewItem`, which is not part of the
sources at hand; an Item has a Route, a ContentProvider and its associated
files, and building it from the three does not fail. -/
def NewItem (route : Route) (contentProvider : ContentProvider) (files : List File) :
    Except Error Item :=
  .ok ⟨route, contentProvider, files⟩

/-! ## The environment of the walker -/

/-- The filesystem together with the configuration and the helpers that
`repository.go` uses from elsewhere. -/
structure Env where
  /-- The entries of the filesystem root. -/
  fs : Entries
  /-- Go `config.FilesDirectoryName` -/
  filesDirectoryName : String
  /-- Go `isReservedDirectory(path)` -/
  isReservedDirectory : Path → Bool
  /-- Go `isMarkdownFile(path)` -/
  isMarkdownFile : Path → Bool
  /-- Go `route.NewFromItemPath(repositoryPath, filePath)` -/
  newRouteFromItemPath : Path → Path → Except Error Route
  /-- Go `route.NewFromItemDirectory(repositoryPath, itemDirectory)` -/
  newRouteFromItemDirectory : Path → Path → Except Error Route
  /-- Go `getFiles(repositoryPath, itemDirectory, filesDirectory)` -/
  getFiles : Path → Path → Path → List File

/-- Modelled from the spec: `findMarkdownFileInDirectory`, which is not part
of the sources at hand; the first document file directly inside the directory,
in enumeration order. -/
def findMarkdownFileInDirectory (env : Env) (directory : Path) : Option Path :=
  ((readDir env.fs directory).find?
      (fun entry => !entry.isDir && env.isMarkdownFile (directory.join entry.name))).map
    (fun entry => directory.join entry.name)

/-- The loop of `getChildDirectories` over a listing. -/
def childDirectories (env : Env) (directory : Path) : List DirEntry → List Path
  | [] => []
  | entry :: rest =>
    if entry.isDir && !env.isReservedDirectory (directory.join entry.name) then
      directory.join entry.name :: childDirectories env directory rest
    else childDirectories env directory rest

/-- Modelled from the spec: `getChildDirectories`, which is not part of the
sources at hand; the existing, non-reserved immediate child directories of a
directory, in enumeration order. -/
def getChildDirectories (env : Env) (directory : Path) : List Path :=
  childDirectories env directory (readDir env.fs directory)

/-! ## Item constructors -/

/-- Go `newItemFromFile`. -/
def newItemFromFile (env : Env) (repositoryPath itemDirectory filePath : Path) :
    Except Error Item :=
  match env.newRouteFromItemPath repositoryPath filePath with
  | .error err => .error (.cannotCreateItem filePath err)
  | .ok route =>
    let contentProvider := ContentProvider.fileContent filePath route
    let filesDirectory := itemDirectory.join env.filesDirectoryName
    let files := env.getFiles repositoryPath itemDirectory filesDirectory
    NewItem route contentProvider files

/-- Go `newVirtualItem`. -/
def newVirtualItem (env : Env) (repositoryPath itemDirectory : Path) : Except Error Item :=
  let title := itemDirectory.base
  let content := "# " ++ title
  match env.newRouteFromItemDirectory repositoryPath itemDirectory with
  | .error err => .error (.cannotCreateItem itemDirectory err)
  | .ok route =>
    let contentProvider := ContentProvider.textContent content route
    let filesDirectory := itemDirectory.join env.filesDirectoryName
    let files := env.getFiles repositoryPath itemDirectory filesDirectory
    NewItem route contentProvider files

/-- Go `newFileCollectionItem`. -/
def newFileCollectionItem (env : Env) (repositoryPath itemDirectory : Path) :
    Except Error Item :=
  let title := itemDirectory.base
  let content := "# " ++ title
  match env.newRouteFromItemDirectory repositoryPath itemDirectory with
  | .error err => .error (.cannotCreateItem itemDirectory err)
  | .ok route =>
    let contentProvider := ContentProvider.textContent content route
    let filesDirectory := itemDirectory
    let files := env.getFiles repositoryPath itemDirectory filesDirectory
    NewItem route contentProvider files

/-! ## The look-ahead -/

/-- The `for` loop of `directoryDoesNotContainsItems` over the listing of
`directory`; `recurse` is the recursive call. -/
def scanEntries (env : Env) (recurse : Path → Option Bool) (directory : Path) :
    List DirEntry → Option Bool
  | [] => some false
  | entry :: rest =>
    let childDirectory := directory.join entry.name
    if entry.isDir then
      if env.isReservedDirectory childDirectory then some true
      else recurse childDirectory
    else if env.isMarkdownFile childDirectory then some true
    else scanEntries env recurse directory rest

/-- Go `directoryDoesNotContainsItems`; `none` when the fuel runs out. -/
def directoryDoesNotContainsItems (env : Env) : Nat → Path → Option Bool
  | 0, _ => none
  | fuel + 1, directory =>
    scanEntries env (directoryDoesNotContainsItems env fuel) directory
      (readDir env.fs directory)

/-! ## The walk -/

/-- The `for` loop of `indexItems` over the child directories: the events of
each child, one child after the other; `walk` is the recursive call. -/
def forEachChild (walk : Path → Option (List RepositoryEvent)) :
    List Path → Option (List RepositoryEvent)
  | [] => some []
  | childItemDirectory :: rest =>
    match walk childItemDirectory, forEachChild walk rest with
    | some events, some more => some (events ++ more)
    | _, _ => none

/-- The event that `indexItems` publishes for an existing, non-reserved path
(the `if found ... else ...` block); `lookAhead` is the result of
`directoryDoesNotContainsItems(itemDirectory)`, which is only asked for when
no markdown file is found. -/
def itemEvent (env : Env) (repositoryPath itemPath itemDirectory : Path)
    (lookAhead : Option Bool) : Option RepositoryEvent :=
  match findMarkdownFileInDirectory env itemPath with
  | some markdownFilePath =>
    some (eventOf (newItemFromFile env repositoryPath itemDirectory markdownFilePath))
  | none =>
    match lookAhead with
    | none => none
    | some true => some (eventOf (newVirtualItem env repositoryPath itemDirectory))
    | some false => some (eventOf (newFileCollectionItem env repositoryPath itemDirectory))

/-- Go `indexItems`: the events sent on `itemEvents`, in the order sent;
`none` when the fuel runs out. -/
def indexItems (env : Env) : Nat → Path → Path → Option (List RepositoryEvent)
  | 0, _, _ => none
  | fuel + 1, repositoryPath, itemPath =>
    if !pathExists env.fs itemPath then
      some [NewEvent none (some (.pathDoesNotExist itemPath))]
    else if env.isReservedDirectory itemPath then
      some [NewEvent none (some (.reservedName itemPath))]
    else
      let itemDirectory := if isDirectory env.fs itemPath then itemPath else itemPath.dir
      match itemEvent env repositoryPath itemPath itemDirectory
          (directoryDoesNotContainsItems env (fuel + 1) itemDirectory),
        forEachChild (indexItems env fuel repositoryPath)
          (getChildDirectories env itemDirectory) with
      | some event, some events => some (event :: events)
      | _, _ => none

/-! ## The repository and its event streams -/

/-- A channel of repository events: what has been sent on it so far, oldest
first, and whether it has been closed. -/
structure Chan where
  capacity : Nat
  sent : List RepositoryEvent
  closed : Bool
  deriving DecidableEq, Repr

/-- Go `make(chan *dataaccess.RepositoryEvent, capacity)`. -/
def makeChan (capacity : Nat) : Chan := ⟨capacity, [], false⟩

/-- Go `ch <- event`, as seen by a consumer that keeps receiving. -/
def Chan.send (ch : Chan) (event : RepositoryEvent) : Chan :=
  { ch with sent := ch.sent ++ [event] }

/-- Go `close(ch)`. -/
def Chan.close (ch : Chan) : Chan := { ch with closed := true }

/-- Go `Repository` (the logger is left out). -/
structure Repository where
  hash : String
  directory : Path
  deriving DecidableEq, Repr

/-- Go `Repository.Path`. -/
def Repository.Path (repository : Repository) : Allmark.Path := repository.directory

/-- Go `Repository.Items`: the channel once the producer has run: every event
of the walk has been sent, then the channel has been closed. -/
def Repository.Items (env : Env) (fuel : Nat) (repository : Repository) : Option Chan :=
  match indexItems env fuel repository.Path repository.Path with
  | some events => some (events.foldl Chan.send (makeChan 1)).close
  | none => none

/-- Go `Repository.Changed`: the channel is made and returned. -/
def Repository.Changed (_repository : Repository) : Chan := makeChan 1

/-! ## A concrete environment -/

/-- Modelled from the spec: `route.NewFromItemDirectory`, which is not part of
the sources at hand; it fails if the directory is not inside the repository
root, and otherwise strips the root and keeps the remaining segments. -/
def routeFromItemDirectory (repositoryPath itemDirectory : Path) : Except Error Route :=
  if repositoryPath <+: itemDirectory then
    .ok ⟨itemDirectory.drop repositoryPath.length⟩
  else .error (.notInRepository repositoryPath itemDirectory)

/-- Modelled from the spec: `route.NewFromItemPath`, which is not part of the
sources at hand; it takes the parent directory of the file and proceeds as for
a directory. -/
def routeFromItemPath (repositoryPath filePath : Path) : Except Error Route :=
  routeFromItemDirectory repositoryPath filePath.dir

/-- The files below a directory, given its entries: reserved subdirectories
are skipped, every regular file becomes a `File`. -/
def filesBelow (isReserved : Path → Bool) (repositoryPath directory : Path) :
    Entries → List File
  | .nil => []
  | .file name rest =>
    (match routeFromItemPath repositoryPath (directory.join name) with
      | .ok route => [⟨route, .fileContent (directory.join name) route⟩]
      | .error _ => [])
      ++ filesBelow isReserved repositoryPath directory rest
  | .dir name sub rest =>
    (if isReserved (directory.join name) then []
      else filesBelow isReserved repositoryPath (directory.join name) sub)
      ++ filesBelow isReserved repositoryPath directory rest

/-- Modelled from the spec: `getFiles`, which is not part of the sources at
hand; it walks `filesDirectory` recursively, does not descend into reserved
subdirectories, turns every regular file into a `File` with a route and a
file-backed content provider, and yields no files if the directory cannot be
listed. -/
def filesIn (fs : Entries) (isReserved : Path → Bool)
    (repositoryPath _itemDirectory filesDirectory : Path) : List File :=
  match fs.lookup filesDirectory with
  | some (.dir es) => filesBelow isReserved repositoryPath filesDirectory es
  | _ => []

/-- Modelled from the spec: the reserved directories are those with a reserved
name; here the files directory and the metadata directory. -/
def reservedByName (path : Path) : Bool :=
  path.base == "files" || path.base == ".allmark"

/-- Modelled from the spec: a document file is recognised by its extension. -/
def markdownByName (path : Path) : Bool :=
  ".md".data.isSuffixOf path.base.data

/-- The environment over a filesystem with the helpers above. -/
def standardEnv (fs : Entries) : Env where
  fs := fs
  filesDirectoryName := "files"
  isReservedDirectory := reservedByName
  isMarkdownFile := markdownByName
  newRouteFromItemPath := routeFromItemPath
  newRouteFromItemDirectory := routeFromItemDirectory
  getFiles := filesIn fs reservedByName

/-! ## The shape of a filesystem -/

/-- The names of the entries of a directory. -/
def Entries.names : Entries → List String
  | .nil => []
  | .file name rest => name :: rest.names
  | .dir name _ rest => name :: rest.names

/-- The subdirectories of a directory, each with its entries. -/
def Entries.dirs : Entries → List (String × Entries)
  | .nil => []
  | .file _ rest => rest.dirs
  | .dir name sub rest => (name, sub) :: rest.dirs

/-- The number of directory levels below a directory. -/
def Entries.height : Entries → Nat
  | .nil => 0
  | .file _ rest => rest.height
  | .dir _ sub rest => max (sub.height + 1) rest.height

/-- Lexicographic order of names. -/
def nameLt (a b : String) : Prop := a.data < b.data

instance (a b : String) : Decidable (nameLt a b) :=
  inferInstanceAs (Decidable (a.data < b.data))

/-- Every directory lists its entries in strictly increasing lexicographic
order of their names, as `ioutil.ReadDir` does; in particular no directory has
two entries of the same name. -/
def Entries.wellFormed : Entries → Bool
  | .nil => true
  | .file name rest =>
    rest.names.all (fun other => decide (nameLt name other)) && rest.wellFormed
  | .dir name sub rest =>
    rest.names.all (fun other => decide (nameLt name other)) && sub.wellFormed
      && rest.wellFormed

/-- The height of the directory at a path (zero if there is none). -/
def heightAt (fs : Entries) (path : Path) : Nat :=
  match fs.lookup path with
  | some (.dir es) => es.height
  | _ => 0

/-! ## The walk, read off the tree -/

/-- The directories below `directory` that are reached through non-reserved
directories, in pre-order, given the entries of `directory`. -/
def visitedBelow (env : Env) (directory : Path) : Entries → List Path
  | .nil => []
  | .file _ rest => visitedBelow env directory rest
  | .dir name sub rest =>
    if env.isReservedDirectory (directory.join name) then visitedBelow env directory rest
    else
      (directory.join name :: visitedBelow env (directory.join name) sub)
        ++ visitedBelow env directory rest

/-- The directories reached from the directory `root` through non-reserved
directories, in pre-order, `root` first. -/
def visited (env : Env) (root : Path) : List Path :=
  match env.fs.lookup root with
  | some (.dir es) => root :: visitedBelow env root es
  | _ => []

/-- The directories reachable from `root` through non-reserved directories:
`root` itself, and every non-reserved directory entry of a reachable
directory. -/
inductive Reachable (env : Env) (root : Path) : Path → Prop where
  | root : Reachable env root root
  | child {directory : Path} {name : String} :
      Reachable env root directory →
      (⟨name, true⟩ : DirEntry) ∈ readDir env.fs directory →
      env.isReservedDirectory (directory.join name) = false →
      Reachable env root (directory.join name)

/-- The look-ahead read off the tree: the entries of `directory` are scanned
up to the first directory or document file. -/
def lookAheadBelow (env : Env) (directory : Path) : Entries → Bool
  | .nil => false
  | .file name rest =>
    if env.isMarkdownFile (directory.join name) then true
    else lookAheadBelow env directory rest
  | .dir name sub _ =>
    if env.isReservedDirectory (directory.join name) then true
    else lookAheadBelow env (directory.join name) sub

/-- The look-ahead of the directory at a path, read off the tree. -/
def lookAheadAt (env : Env) (directory : Path) : Bool :=
  match env.fs.lookup directory with
  | some (.dir es) => lookAheadBelow env directory es
  | _ => false

/-- The entries that decide the look-ahead: directories and document files. -/
def isDirOrDocument (env : Env) (directory : Path) (entry : DirEntry) : Bool :=
  entry.isDir || env.isMarkdownFile (directory.join entry.name)

/-- The event of the walk for the directory at a path. -/
def nodeEvent (env : Env) (repositoryPath directory : Path) : RepositoryEvent :=
  match findMarkdownFileInDirectory env directory with
  | some markdownFilePath =>
    eventOf (newItemFromFile env repositoryPath directory markdownFilePath)
  | none =>
    if lookAheadAt env directory then eventOf (newVirtualItem env repositoryPath directory)
    else eventOf (newFileCollectionItem env repositoryPath directory)

/-- The route of the item of `directory` cannot be built: the item constructor
asks for the route of `path`, which is the markdown file of the directory if
there is one (`newItemFromFile`) and the directory itself otherwise
(`newVirtualItem`, `newFileCollectionItem`), and the route constructor answers
with the error `cause`. -/
def RouteFailsWith (env : Env) (repositoryPath directory path : Path) (cause : Error) :
    Prop :=
  match findMarkdownFileInDirectory env directory with
  | some markdownFilePath =>
    path = markdownFilePath ∧
      env.newRouteFromItemPath repositoryPath markdownFilePath = .error cause
  | none =>
    path = directory ∧
      env.newRouteFromItemDirectory repositoryPath directory = .error cause

/-- The same environment with other route constructors. -/
def withRoutes (env : Env) (fromItemPath fromItemDirectory : Path → Path → Except Error Route) :
    Env :=
  { env with
    newRouteFromItemPath := fromItemPath
    newRouteFromItemDirectory := fromItemDirectory }

/-- The standard environment, except that the route constructor for directories
rejects the directory `repo/b`. -/
def rejectingEnv (fs : Entries) : Env :=
  withRoutes (standardEnv fs) routeFromItemPath
    (fun repositoryPath itemDirectory =>
      if itemDirectory = ["repo", "b"] then
        .error (.notInRepository repositoryPath itemDirectory)
      else routeFromItemDirectory repositoryPath itemDirectory)

/-! ## Invariants -/

/-- The directory at `directory` has the entries `es`, and they are well formed. -/
structure At (fs : Entries) (directory : Path) (es : Entries) : Prop where
  lookup : fs.lookup directory = some (.dir es)
  wf : es.wellFormed = true

/-- Every subdirectory listed in `es` resolves, below `directory`, to its
entries, and is listed by `readDir`. -/
def Resolves (fs : Entries) (directory : Path) (es : Entries) : Prop :=
  ∀ name sub, (name, sub) ∈ es.dirs →
    At fs (directory.join name) sub ∧ (⟨name, true⟩ : DirEntry) ∈ readDir fs directory

/-! ## Example filesystems -/

/-- A directory `d` whose first subdirectory is empty and whose second
subdirectory holds a document. -/
def firstEmptySecondDocument : Entries :=
  .dir "d" (.dir "a" .nil (.dir "b" (.file "doc.md" .nil) .nil)) .nil

/-- The example of the spec: `repo/a/doc.md` and `repo/b/image.png`. -/
def repoExample : Entries :=
  .dir "repo"
    (.dir "a" (.file "doc.md" .nil)
      (.dir "b" (.file "image.png" .nil) .nil))
    .nil

/-- The example of the spec with a document below `b`: `repo/a/doc.md`,
`repo/b/image.png` and `repo/b/sub/doc.md`. -/
def repoExampleDeep : Entries :=
  .dir "repo"
    (.dir "a" (.file "doc.md" .nil)
      (.dir "b" (.file "image.png" (.dir "sub" (.file "doc.md" .nil) .nil)) .nil))
    .nil

/-- A repository whose files directory holds a document and a subdirectory. -/
def reservedExample : Entries :=
  .dir "repo"
    (.dir "files" (.dir "deep" (.file "doc.md" .nil) (.file "doc.md" .nil)) .nil)
    .nil

/-! ## Resolving paths -/

theorem Entries.mem_dirs_of_find {name : String} {sub : Entries} :
    ∀ {es : Entries}, es.find name = some (.dir sub) → (name, sub) ∈ es.dirs
  | .nil, h => by simp [Entries.find] at h
  | .file n rest, h => by
    by_cases hn : n = name
    · simp [Entries.find, hn] at h
    · simp only [Entries.find, hn, if_false] at h
      exact @Entries.mem_dirs_of_find name sub rest h
  | .dir n s rest, h => by
    by_cases hn : n = name
    · simp only [Entries.find, hn, if_true, Option.some.injEq, Stat.dir.injEq] at h
      subst h; subst hn
      simp [Entries.dirs]
    · simp only [Entries.find, hn, if_false] at h
      exact List.mem_cons_of_mem _ (@Entries.mem_dirs_of_find name sub rest h)

theorem Entries.name_mem_of_mem_dirs {name : String} {sub : Entries} :
    ∀ {es : Entries}, (name, sub) ∈ es.dirs → name ∈ es.names
  | .nil, h => by simp [Entries.dirs] at h
  | .file n rest, h => by
    simp only [Entries.dirs] at h
    exact List.mem_cons_of_mem _ (Entries.name_mem_of_mem_dirs h)
  | .dir n s rest, h => by
    simp only [Entries.dirs, List.mem_cons, Prod.mk.injEq] at h
    rcases h with ⟨h1, _⟩ | h
    · simp [Entries.names, h1]
    · exact List.mem_cons_of_mem _ (Entries.name_mem_of_mem_dirs h)

theorem nameLt_ne {a b : String} (h : nameLt a b) : a ≠ b := by
  rintro rfl
  exact lt_irrefl _ h

theorem Entries.find_of_mem_dirs {name : String} {sub : Entries} :
    ∀ {es : Entries}, es.wellFormed = true → (name, sub) ∈ es.dirs →
      es.find name = some (.dir sub)
  | .nil, _, h => by simp [Entries.dirs] at h
  | .file n rest, hw, h => by
    simp only [Entries.wellFormed, Bool.and_eq_true, List.all_eq_true, decide_eq_true_eq] at hw
    simp only [Entries.dirs] at h
    have hn : n ≠ name := nameLt_ne (hw.1 _ (Entries.name_mem_of_mem_dirs h))
    simp only [Entries.find, hn, if_false]
    exact Entries.find_of_mem_dirs hw.2 h
  | .dir n s rest, hw, h => by
    simp only [Entries.wellFormed, Bool.and_eq_true, List.all_eq_true, decide_eq_true_eq] at hw
    simp only [Entries.dirs, List.mem_cons, Prod.mk.injEq] at h
    rcases h with ⟨h1, h2⟩ | h
    · simp [Entries.find, h1, h2]
    · have hn : n ≠ name := nameLt_ne (hw.1.1 _ (Entries.name_mem_of_mem_dirs h))
      simp only [Entries.find, hn, if_false]
      exact Entries.find_of_mem_dirs hw.2 h

theorem Entries.wellFormed_of_mem_dirs {name : String} {sub : Entries} :
    ∀ {es : Entries}, es.wellFormed = true → (name, sub) ∈ es.dirs → sub.wellFormed = true
  | .nil, _, h => by simp [Entries.dirs] at h
  | .file n rest, hw, h => by
    simp only [Entries.wellFormed, Bool.and_eq_true] at hw
    simp only [Entries.dirs] at h
    exact Entries.wellFormed_of_mem_dirs hw.2 h
  | .dir n s rest, hw, h => by
    simp only [Entries.wellFormed, Bool.and_eq_true] at hw
    simp only [Entries.dirs, List.mem_cons, Prod.mk.injEq] at h
    rcases h with ⟨_, h2⟩ | h
    · rw [h2]; exact hw.1.2
    · exact Entries.wellFormed_of_mem_dirs hw.2 h

theorem Entries.height_lt_of_mem_dirs {name : String} {sub : Entries} :
    ∀ {es : Entries}, (name, sub) ∈ es.dirs → sub.height < es.height
  | .nil, h => by simp [Entries.dirs] at h
  | .file n rest, h => by
    simp only [Entries.dirs] at h
    simpa [Entries.height] using Entries.height_lt_of_mem_dirs h
  | .dir n s rest, h => by
    simp only [Entries.dirs, List.mem_cons, Prod.mk.injEq] at h
    rcases h with ⟨_, h2⟩ | h
    · subst h2
      simp only [Entries.height]
      omega
    · have := Entries.height_lt_of_mem_dirs h
      simp only [Entries.height]
      omega

theorem Entries.lookup_join {es : Entries} {name : String} :
    ∀ (path : Path) {fs : Entries}, fs.lookup path = some (.dir es) →
      fs.lookup (path.join name) = es.find name
  | [], fs, h => by
    simp only [Entries.lookup, Option.some.injEq, Stat.dir.injEq] at h
    subst h
    simp only [Path.join, List.nil_append, Entries.lookup]
    cases hf : fs.find name with
    | none => rfl
    | some st => cases st <;> simp [Entries.lookup]
  | seg :: more, fs, h => by
    simp only [Path.join, List.cons_append, Entries.lookup] at h ⊢
    cases hf : fs.find seg with
    | none => simp [hf] at h
    | some st =>
      cases st with
      | file =>
        rw [hf] at h
        by_cases hm : more = [] <;> simp [hm] at h
      | dir sub =>
        rw [hf] at h
        exact Entries.lookup_join more h

theorem Entries.wellFormed_of_lookup {es : Entries} :
    ∀ (path : Path) {fs : Entries}, fs.wellFormed = true →
      fs.lookup path = some (.dir es) → es.wellFormed = true
  | [], fs, hw, h => by
    simp only [Entries.lookup, Option.some.injEq, Stat.dir.injEq] at h
    exact h ▸ hw
  | seg :: more, fs, hw, h => by
    simp only [Entries.lookup] at h
    cases hf : fs.find seg with
    | none => simp [hf] at h
    | some st =>
      cases st with
      | file =>
        rw [hf] at h
        by_cases hm : more = [] <;> simp [hm] at h
      | dir sub =>
        rw [hf] at h
        exact Entries.wellFormed_of_lookup more
          (Entries.wellFormed_of_mem_dirs hw (Entries.mem_dirs_of_find hf)) h

theorem At.of_lookup {fs es : Entries} {directory : Path} (hw : fs.wellFormed = true)
    (h : fs.lookup directory = some (.dir es)) : At fs directory es :=
  ⟨h, Entries.wellFormed_of_lookup directory hw h⟩

theorem At.child {fs es sub : Entries} {directory : Path} {name : String}
    (h : At fs directory es) (hm : (name, sub) ∈ es.dirs) :
    At fs (directory.join name) sub :=
  ⟨by rw [Entries.lookup_join directory h.lookup]; exact Entries.find_of_mem_dirs h.wf hm,
    Entries.wellFormed_of_mem_dirs h.wf hm⟩

theorem At.readDir {fs es : Entries} {directory : Path} (h : At fs directory es) :
    readDir fs directory = es.toList := by
  simp [Allmark.readDir, h.lookup]

theorem At.pathExists {fs es : Entries} {directory : Path} (h : At fs directory es) :
    pathExists fs directory = true := by
  simp [Allmark.pathExists, h.lookup]

theorem At.isDirectory {fs es : Entries} {directory : Path} (h : At fs directory es) :
    isDirectory fs directory = true := by
  simp [Allmark.isDirectory, h.lookup]

/-! ## The look-ahead agrees with the tree -/

theorem scanEntries_eq (env : Env) (recurse : Path → Option Bool) :
    ∀ (es : Entries) (directory : Path),
      (∀ name sub, (name, sub) ∈ es.dirs →
        env.isReservedDirectory (directory.join name) = false →
        recurse (directory.join name) = some (lookAheadBelow env (directory.join name) sub)) →
      scanEntries env recurse directory es.toList = some (lookAheadBelow env directory es)
  | .nil, _, _ => rfl
  | .file name rest, directory, h => by
    simp only [Entries.toList, scanEntries, lookAheadBelow, Bool.false_eq_true, if_false]
    by_cases hm : env.isMarkdownFile (directory.join name) = true
    · simp [hm]
    · simp only [hm, if_false]
      exact scanEntries_eq env recurse rest directory (fun n s hn hr => h n s hn hr)
  | .dir name sub rest, directory, h => by
    simp only [Entries.toList, scanEntries, lookAheadBelow, if_true]
    by_cases hr : env.isReservedDirectory (directory.join name) = true
    · simp [hr]
    · simp only [hr, if_false]
      exact h name sub (by simp [Entries.dirs]) (by simpa using hr)

theorem directoryDoesNotContainsItems_eq (env : Env) :
    ∀ (fuel : Nat) (directory : Path) (es : Entries), At env.fs directory es →
      es.height < fuel →
      directoryDoesNotContainsItems env fuel directory
        = some (lookAheadBelow env directory es)
  | 0, _, _, _, hf => by omega
  | fuel + 1, directory, es, hat, hf => by
    simp only [directoryDoesNotContainsItems, hat.readDir]
    apply scanEntries_eq
    intro name sub hm _
    have := Entries.height_lt_of_mem_dirs hm
    exact directoryDoesNotContainsItems_eq env fuel _ sub (hat.child hm) (by omega)

/-! ## The walk agrees with the tree -/

theorem forEachChild_eq (env : Env) (walk : Path → Option (List RepositoryEvent))
    (f : Path → RepositoryEvent) :
    ∀ (es : Entries) (directory : Path),
      (∀ name sub, (name, sub) ∈ es.dirs →
        env.isReservedDirectory (directory.join name) = false →
        walk (directory.join name)
          = some ((directory.join name :: visitedBelow env (directory.join name) sub).map f)) →
      forEachChild walk (childDirectories env directory es.toList)
        = some ((visitedBelow env directory es).map f)
  | .nil, _, _ => rfl
  | .file name rest, directory, h => by
    simp only [Entries.toList, childDirectories, visitedBelow, Bool.false_and,
      Bool.false_eq_true, if_false]
    exact forEachChild_eq env walk f rest directory (fun n s hn hr => h n s hn hr)
  | .dir name sub rest, directory, h => by
    have ih := forEachChild_eq env walk f rest directory
      (fun n s hn hr => h n s (List.mem_cons_of_mem _ hn) hr)
    by_cases hr : env.isReservedDirectory (directory.join name) = true
    · simp only [Entries.toList, childDirectories, visitedBelow, hr, Bool.not_true,
        Bool.and_false, Bool.false_eq_true, if_false, if_true]
      exact ih
    · have hr' : env.isReservedDirectory (directory.join name) = false := by simpa using hr
      simp only [Entries.toList, childDirectories, visitedBelow, hr', Bool.not_false,
        Bool.and_true, if_true, Bool.false_eq_true, if_false, forEachChild,
        h name sub (by simp [Entries.dirs]) hr', ih, List.map_append]

theorem At.visited {env : Env} {es : Entries} {directory : Path}
    (h : At env.fs directory es) :
    visited env directory = directory :: visitedBelow env directory es := by
  simp [Allmark.visited, h.lookup]

theorem itemEvent_eq (env : Env) (repositoryPath directory : Path) (b : Bool)
    (hb : b = lookAheadAt env directory) :
    itemEvent env repositoryPath directory directory (some b)
      = some (nodeEvent env repositoryPath directory) := by
  subst hb
  unfold itemEvent nodeEvent
  cases findMarkdownFileInDirectory env directory with
  | some md => rfl
  | none => cases lookAheadAt env directory <;> rfl

theorem indexItems_eq (env : Env) (repositoryPath : Path) :
    ∀ (fuel : Nat) (directory : Path) (es : Entries), At env.fs directory es →
      env.isReservedDirectory directory = false → es.height < fuel →
      indexItems env fuel repositoryPath directory
        = some ((directory :: visitedBelow env directory es).map
            (nodeEvent env repositoryPath))
  | 0, _, _, _, _, hf => by omega
  | fuel + 1, directory, es, hat, hres, hf => by
    have hchildren : forEachChild (indexItems env fuel repositoryPath)
        (getChildDirectories env directory)
        = some ((visitedBelow env directory es).map (nodeEvent env repositoryPath)) := by
      rw [getChildDirectories, hat.readDir]
      apply forEachChild_eq
      intro name sub hm hr
      have := Entries.height_lt_of_mem_dirs hm
      exact indexItems_eq env repositoryPath fuel _ sub (hat.child hm) hr (by omega)
    have hahead : directoryDoesNotContainsItems env (fuel + 1) directory
        = some (lookAheadAt env directory) := by
      rw [directoryDoesNotContainsItems_eq env (fuel + 1) directory es hat hf]
      simp [lookAheadAt, hat.lookup]
    simp only [indexItems, hat.pathExists, hat.isDirectory, hres, Bool.not_true,
      Bool.false_eq_true, if_false, if_true, hahead, hchildren,
      itemEvent_eq env repositoryPath directory _ rfl, List.map_cons]

/-! ## The visited directories -/

theorem Entries.mem_toList_of_mem_dirs {name : String} {sub : Entries} :
    ∀ {es : Entries}, (name, sub) ∈ es.dirs → (⟨name, true⟩ : DirEntry) ∈ es.toList
  | .nil, h => by simp [Entries.dirs] at h
  | .file n rest, h => by
    simp only [Entries.dirs] at h
    exact List.mem_cons_of_mem _ (@Entries.mem_toList_of_mem_dirs name sub rest h)
  | .dir n s rest, h => by
    simp only [Entries.dirs, List.mem_cons, Prod.mk.injEq] at h
    rcases h with ⟨h1, _⟩ | h
    · simp [Entries.toList, h1]
    · exact List.mem_cons_of_mem _ (@Entries.mem_toList_of_mem_dirs name sub rest h)

theorem Entries.mem_dirs_of_mem_toList {name : String} :
    ∀ {es : Entries}, (⟨name, true⟩ : DirEntry) ∈ es.toList → ∃ sub, (name, sub) ∈ es.dirs
  | .nil, h => by simp [Entries.toList] at h
  | .file n rest, h => by
    simp only [Entries.toList, List.mem_cons, DirEntry.mk.injEq, Bool.true_eq_false,
      and_false, false_or] at h
    exact @Entries.mem_dirs_of_mem_toList name rest h
  | .dir n s rest, h => by
    simp only [Entries.toList, List.mem_cons, DirEntry.mk.injEq, and_true] at h
    rcases h with h | h
    · exact ⟨s, by simp [Entries.dirs, h]⟩
    · obtain ⟨sub, hs⟩ := @Entries.mem_dirs_of_mem_toList name rest h
      exact ⟨sub, List.mem_cons_of_mem _ hs⟩

theorem At.resolves {fs es : Entries} {directory : Path} (h : At fs directory es) :
    Resolves fs directory es :=
  fun _ _ hm => ⟨h.child hm, by rw [h.readDir]; exact Entries.mem_toList_of_mem_dirs hm⟩

theorem Resolves.rest_file {fs rest : Entries} {directory : Path} {n : String}
    (h : Resolves fs directory (.file n rest)) : Resolves fs directory rest :=
  fun name sub hm => h name sub hm

theorem Resolves.rest_dir {fs sub rest : Entries} {directory : Path} {n : String}
    (h : Resolves fs directory (.dir n sub rest)) : Resolves fs directory rest :=
  fun name s hm => h name s (List.mem_cons_of_mem _ hm)

theorem Resolves.head {fs sub rest : Entries} {directory : Path} {n : String}
    (h : Resolves fs directory (.dir n sub rest)) : At fs (directory.join n) sub :=
  (h n sub (List.mem_cons_self _ _)).1

theorem visitedBelow_dir (env : Env) (directory : Path) (n : String) (sub rest : Entries)
    (hres : env.isReservedDirectory (directory.join n) = false) :
    visitedBelow env directory (.dir n sub rest)
      = (directory.join n :: visitedBelow env (directory.join n) sub)
          ++ visitedBelow env directory rest := by
  simp [visitedBelow, hres]

theorem visitedBelow_dir_reserved (env : Env) (directory : Path) (n : String)
    (sub rest : Entries) (hres : env.isReservedDirectory (directory.join n) = true) :
    visitedBelow env directory (.dir n sub rest) = visitedBelow env directory rest := by
  simp [visitedBelow, hres]

/-- Every visited directory below `directory` starts with `directory` followed
by the name of one of its entries. -/
theorem visitedBelow_shape (env : Env) :
    ∀ (es : Entries) (directory p : Path), p ∈ visitedBelow env directory es →
      ∃ n t, n ∈ es.names ∧ p = directory ++ n :: t
  | .nil, _, _, hp => by simp [visitedBelow] at hp
  | .file n rest, directory, p, hp => by
    obtain ⟨m, t, hm, ht⟩ := visitedBelow_shape env rest directory p hp
    exact ⟨m, t, List.mem_cons_of_mem _ hm, ht⟩
  | .dir n sub rest, directory, p, hp => by
    cases hres : env.isReservedDirectory (directory.join n) with
    | true =>
      rw [visitedBelow_dir_reserved env directory n sub rest hres] at hp
      obtain ⟨m, t, hm, ht⟩ := visitedBelow_shape env rest directory p hp
      exact ⟨m, t, List.mem_cons_of_mem _ hm, ht⟩
    | false =>
      rw [visitedBelow_dir env directory n sub rest hres, List.mem_append, List.mem_cons] at hp
      rcases hp with (rfl | hp) | hp
      · exact ⟨n, [], List.mem_cons_self _ _, rfl⟩
      · obtain ⟨m, t, _, ht⟩ := visitedBelow_shape env sub _ p hp
        exact ⟨n, m :: t, List.mem_cons_self _ _, by simp [ht, Path.join]⟩
      · obtain ⟨m, t, hm, ht⟩ := visitedBelow_shape env rest directory p hp
        exact ⟨m, t, List.mem_cons_of_mem _ hm, ht⟩

theorem visitedBelow_ne (env : Env) {es : Entries} {directory p : Path}
    (hp : p ∈ visitedBelow env directory es) : directory.length < p.length := by
  obtain ⟨n, t, _, rfl⟩ := visitedBelow_shape env es directory p hp
  simp

/-- The shape of the block of the first subdirectory. -/
theorem block_shape (env : Env) {sub : Entries} {directory p : Path} {n : String}
    (hp : p ∈ directory.join n :: visitedBelow env (directory.join n) sub) :
    ∃ t, p = directory ++ n :: t := by
  rw [List.mem_cons] at hp
  rcases hp with rfl | hp
  · exact ⟨[], rfl⟩
  · obtain ⟨m, t, _, ht⟩ := visitedBelow_shape env sub _ p hp
    exact ⟨m :: t, by simp [ht, Path.join]⟩

theorem visitedBelow_nodup (env : Env) :
    ∀ (es : Entries) (directory : Path), es.wellFormed = true →
      (visitedBelow env directory es).Nodup
  | .nil, _, _ => by simp [visitedBelow]
  | .file n rest, directory, hw => by
    simp only [Entries.wellFormed, Bool.and_eq_true] at hw
    exact visitedBelow_nodup env rest directory hw.2
  | .dir n sub rest, directory, hw => by
    simp only [Entries.wellFormed, Bool.and_eq_true, List.all_eq_true,
      decide_eq_true_eq] at hw
    cases hres : env.isReservedDirectory (directory.join n) with
    | true =>
      rw [visitedBelow_dir_reserved env directory n sub rest hres]
      exact visitedBelow_nodup env rest directory hw.2
    | false =>
      rw [visitedBelow_dir env directory n sub rest hres, List.nodup_append, List.nodup_cons]
      refine ⟨⟨?_, visitedBelow_nodup env sub _ hw.1.2⟩,
        visitedBelow_nodup env rest directory hw.2, ?_⟩
      · intro hmem
        have := visitedBelow_ne env hmem
        omega
      · intro x hx1 hx2
        obtain ⟨t1, h1⟩ := block_shape env hx1
        obtain ⟨m, t2, hm, h2⟩ := visitedBelow_shape env rest directory x hx2
        rw [h1] at h2
        have h3 := List.append_cancel_left h2
        simp only [List.cons.injEq] at h3
        exact nameLt_ne (hw.1.1 m hm) h3.1

/-- In the visited list no directory comes after one of its proper
descendants. -/
theorem visitedBelow_preorder (env : Env) :
    ∀ (es : Entries) (directory : Path), es.wellFormed = true →
      (visitedBelow env directory es).Pairwise (fun X Y => ¬ (Y <+: X ∧ Y ≠ X))
  | .nil, _, _ => by simp [visitedBelow]
  | .file n rest, directory, hw => by
    simp only [Entries.wellFormed, Bool.and_eq_true] at hw
    exact visitedBelow_preorder env rest directory hw.2
  | .dir n sub rest, directory, hw => by
    simp only [Entries.wellFormed, Bool.and_eq_true, List.all_eq_true,
      decide_eq_true_eq] at hw
    cases hres : env.isReservedDirectory (directory.join n) with
    | true =>
      rw [visitedBelow_dir_reserved env directory n sub rest hres]
      exact visitedBelow_preorder env rest directory hw.2
    | false =>
      rw [visitedBelow_dir env directory n sub rest hres, List.pairwise_append,
        List.pairwise_cons]
      refine ⟨⟨?_, visitedBelow_preorder env sub _ hw.1.2⟩,
        visitedBelow_preorder env rest directory hw.2, ?_⟩
      · intro Y hY hpre
        have h1 := visitedBelow_ne env hY
        have h2 := hpre.1.length_le
        omega
      · intro X hX Y hY hpre
        obtain ⟨t1, h1⟩ := block_shape env hX
        obtain ⟨m, t2, hm, h2⟩ := visitedBelow_shape env rest directory Y hY
        have h3 := hpre.1
        rw [h1, h2, List.prefix_append_right_inj] at h3
        obtain ⟨u, hu⟩ := h3
        simp only [List.cons_append, List.cons.injEq] at hu
        exact nameLt_ne (hw.1.1 m hm) hu.1.symm

theorem visited_nodup {env : Env} {es : Entries} {root : Path} (h : At env.fs root es) :
    (visited env root).Nodup := by
  rw [h.visited, List.nodup_cons]
  refine ⟨fun hmem => ?_, visitedBelow_nodup env es root h.wf⟩
  have := visitedBelow_ne env hmem
  omega

theorem visited_preorder {env : Env} {es : Entries} {root : Path} (h : At env.fs root es) :
    (visited env root).Pairwise (fun X Y => ¬ (Y <+: X ∧ Y ≠ X)) := by
  rw [h.visited, List.pairwise_cons]
  refine ⟨fun Y hY hpre => ?_, visitedBelow_preorder env es root h.wf⟩
  have h1 := visitedBelow_ne env hY
  have h2 := hpre.1.length_le
  omega

/-! ## Visited is reachable -/

theorem reachable_of_mem_visitedBelow (env : Env) (root : Path) :
    ∀ (es : Entries) (directory : Path), Resolves env.fs directory es →
      Reachable env root directory →
      ∀ p ∈ visitedBelow env directory es, Reachable env root p
  | .nil, _, _, _, p, hp => by simp [visitedBelow] at hp
  | .file n rest, directory, hr, hd, p, hp =>
    reachable_of_mem_visitedBelow env root rest directory hr.rest_file hd p hp
  | .dir n sub rest, directory, hr, hd, p, hp => by
    cases hres : env.isReservedDirectory (directory.join n) with
    | true =>
      rw [visitedBelow_dir_reserved env directory n sub rest hres] at hp
      exact reachable_of_mem_visitedBelow env root rest directory hr.rest_dir hd p hp
    | false =>
      rw [visitedBelow_dir env directory n sub rest hres, List.mem_append, List.mem_cons] at hp
      have hc : Reachable env root (directory.join n) :=
        .child hd (hr n sub (List.mem_cons_self _ _)).2 hres
      rcases hp with (rfl | hp) | hp
      · exact hc
      · exact reachable_of_mem_visitedBelow env root sub _ hr.head.resolves hc p hp
      · exact reachable_of_mem_visitedBelow env root rest directory hr.rest_dir hd p hp

theorem reachable_of_mem_visited {env : Env} {es : Entries} {root p : Path}
    (h : At env.fs root es) (hp : p ∈ visited env root) : Reachable env root p := by
  rw [h.visited, List.mem_cons] at hp
  rcases hp with rfl | hp
  · exact .root
  · exact reachable_of_mem_visitedBelow env root es root h.resolves .root _ hp

/-- The visited directories below a visited directory form one block of the
visited list; a visited directory is not reserved and is less high than the
directory the walk started from. -/
theorem visitedBelow_block (env : Env) :
    ∀ (es : Entries) (directory : Path), Resolves env.fs directory es →
      ∀ q ∈ visitedBelow env directory es, ∃ esq pre post, At env.fs q esq ∧
        env.isReservedDirectory q = false ∧ esq.height < es.height ∧
        visitedBelow env directory es = pre ++ (q :: visitedBelow env q esq) ++ post
  | .nil, _, _, q, hq => by simp [visitedBelow] at hq
  | .file n rest, directory, hr, q, hq =>
    visitedBelow_block env rest directory hr.rest_file q hq
  | .dir n sub rest, directory, hr, q, hq => by
    cases hres : env.isReservedDirectory (directory.join n) with
    | true =>
      rw [visitedBelow_dir_reserved env directory n sub rest hres] at hq ⊢
      obtain ⟨esq, pre, post, hat, hq1, hq2, heq⟩ :=
        visitedBelow_block env rest directory hr.rest_dir q hq
      exact ⟨esq, pre, post, hat, hq1, by simp only [Entries.height]; omega, heq⟩
    | false =>
      rw [visitedBelow_dir env directory n sub rest hres] at hq ⊢
      rw [List.mem_append, List.mem_cons] at hq
      rcases hq with (rfl | hq) | hq
      · exact ⟨sub, [], visitedBelow env directory rest, hr.head, hres,
          by simp only [Entries.height]; omega, by simp⟩
      · obtain ⟨esq, pre, post, hat, hq1, hq2, heq⟩ :=
          visitedBelow_block env sub _ hr.head.resolves q hq
        exact ⟨esq, directory.join n :: pre, post ++ visitedBelow env directory rest, hat,
          hq1, by simp only [Entries.height]; omega, by rw [heq]; simp⟩
      · obtain ⟨esq, pre, post, hat, hq1, hq2, heq⟩ :=
          visitedBelow_block env rest directory hr.rest_dir q hq
        exact ⟨esq, (directory.join n :: visitedBelow env (directory.join n) sub) ++ pre,
          post, hat, hq1, by simp only [Entries.height]; omega, by rw [heq]; simp⟩

theorem visited_block {env : Env} {es : Entries} {root q : Path}
    (h : At env.fs root es) (hres : env.isReservedDirectory root = false)
    (hq : q ∈ visited env root) :
    ∃ esq pre post, At env.fs q esq ∧ env.isReservedDirectory q = false ∧
      esq.height ≤ es.height ∧
      visited env root = pre ++ (q :: visitedBelow env q esq) ++ post := by
  rw [h.visited] at hq ⊢
  rw [List.mem_cons] at hq
  rcases hq with rfl | hq
  · exact ⟨es, [], [], h, hres, le_refl _, by simp⟩
  · obtain ⟨esq, pre, post, hat, hq1, hq2, heq⟩ :=
      visitedBelow_block env es root h.resolves q hq
    exact ⟨esq, root :: pre, post, hat, hq1, by omega, by rw [heq]; simp⟩

/-- The part of `visited_block` that needs no assumption on the root. -/
theorem visited_block_at {env : Env} {es : Entries} {root q : Path}
    (h : At env.fs root es) (hq : q ∈ visited env root) :
    ∃ esq pre post, At env.fs q esq ∧
      visited env root = pre ++ (q :: visitedBelow env q esq) ++ post := by
  rw [h.visited] at hq ⊢
  rw [List.mem_cons] at hq
  rcases hq with rfl | hq
  · exact ⟨es, [], [], h, by simp⟩
  · obtain ⟨esq, pre, post, hat, _, _, heq⟩ :=
      visitedBelow_block env es root h.resolves q hq
    exact ⟨esq, root :: pre, post, hat, by rw [heq]; simp⟩

theorem mem_visitedBelow_of_mem_dirs (env : Env) {name : String} {sub : Entries} :
    ∀ (es : Entries) (directory : Path), (name, sub) ∈ es.dirs →
      env.isReservedDirectory (directory.join name) = false →
      directory.join name ∈ visitedBelow env directory es
  | .nil, _, h, _ => by simp [Entries.dirs] at h
  | .file n rest, directory, h, hres =>
    mem_visitedBelow_of_mem_dirs env rest directory h hres
  | .dir n s rest, directory, h, hres => by
    simp only [Entries.dirs, List.mem_cons, Prod.mk.injEq] at h
    rcases h with ⟨h1, _⟩ | h
    · subst h1
      rw [visitedBelow_dir env directory name s rest hres]
      simp
    · have ih := mem_visitedBelow_of_mem_dirs env rest directory h hres
      cases hn : env.isReservedDirectory (directory.join n) with
      | true => rw [visitedBelow_dir_reserved env directory n s rest hn]; exact ih
      | false =>
        rw [visitedBelow_dir env directory n s rest hn]
        exact List.mem_append_right _ ih

theorem mem_visited_of_reachable {env : Env} {es : Entries} {root p : Path}
    (h : At env.fs root es) (hp : Reachable env root p) : p ∈ visited env root := by
  induction hp with
  | root => rw [h.visited]; exact List.mem_cons_self _ _
  | @child directory name _ hmem hres ih =>
    obtain ⟨esq, pre, post, hat, heq⟩ := visited_block_at h ih
    rw [hat.readDir] at hmem
    obtain ⟨sub, hsub⟩ := Entries.mem_dirs_of_mem_toList hmem
    have := mem_visitedBelow_of_mem_dirs env esq directory hsub hres
    rw [heq]
    simp only [List.append_assoc, List.mem_append, List.mem_cons]
    exact Or.inr (Or.inl (Or.inr this))

theorem mem_visited_iff_reachable {env : Env} {es : Entries} {root : Path}
    (h : At env.fs root es) (p : Path) : p ∈ visited env root ↔ Reachable env root p :=
  ⟨reachable_of_mem_visited h, mem_visited_of_reachable h⟩

theorem reachable_below {env : Env} {root c : Path} (hc : root <+: c) :
    ∀ {p : Path}, Reachable env root p → c <+: p → Reachable env c p := by
  intro p hp
  induction hp with
  | root =>
    intro hpre
    have : c = root := hpre.eq_of_length (le_antisymm hpre.length_le hc.length_le)
    rw [this]
    exact .root
  | @child directory name hd hmem hres ih =>
    intro hpre
    rw [Path.join, List.prefix_concat_iff] at hpre
    rcases hpre with rfl | hpre
    · exact .root
    · exact .child (ih hpre) hmem hres

theorem root_le_of_mem_visited {env : Env} {root p : Path} (hp : p ∈ visited env root) :
    root <+: p := by
  unfold visited at hp
  split at hp
  · rename_i es _
    rw [List.mem_cons] at hp
    rcases hp with rfl | hp
    · exact List.prefix_refl _
    · obtain ⟨n, t, _, rfl⟩ := visitedBelow_shape env es root p hp
      exact List.prefix_append _ _
  · simp at hp

/-! ## The children of a directory -/

theorem Path.base_join (directory : Path) (name : String) :
    (directory.join name).base = name := by
  simp [Path.base, Path.join, List.getLastD_concat]

theorem Path.dir_join (directory : Path) (name : String) :
    (directory.join name).dir = directory := by
  simp [Path.dir, Path.join]

theorem childDirectories_names (env : Env) (directory : Path) :
    ∀ (es : Entries), ∀ c ∈ childDirectories env directory es.toList,
      ∃ name sub, (name, sub) ∈ es.dirs ∧ c = directory.join name ∧
        env.isReservedDirectory c = false
  | .nil, c, hc => by simp [Entries.toList, childDirectories] at hc
  | .file n rest, c, hc => by
    simp only [Entries.toList, childDirectories, Bool.false_and, Bool.false_eq_true,
      if_false] at hc
    exact childDirectories_names env directory rest c hc
  | .dir n sub rest, c, hc => by
    cases hres : env.isReservedDirectory (directory.join n) with
    | true =>
      simp only [Entries.toList, childDirectories, hres, Bool.not_true, Bool.and_false,
        Bool.false_eq_true, if_false] at hc
      obtain ⟨m, s, hm, h1, h2⟩ := childDirectories_names env directory rest c hc
      exact ⟨m, s, List.mem_cons_of_mem _ hm, h1, h2⟩
    | false =>
      simp only [Entries.toList, childDirectories, hres, Bool.not_false, Bool.and_true,
        if_true, List.mem_cons] at hc
      rcases hc with rfl | hc
      · exact ⟨n, sub, List.mem_cons_self _ _, rfl, hres⟩
      · obtain ⟨m, s, hm, h1, h2⟩ := childDirectories_names env directory rest c hc
        exact ⟨m, s, List.mem_cons_of_mem _ hm, h1, h2⟩

theorem childDirectories_sorted (env : Env) (directory : Path) :
    ∀ (es : Entries), es.wellFormed = true →
      (childDirectories env directory es.toList).Pairwise
        (fun a b => nameLt a.base b.base)
  | .nil, _ => by simp [Entries.toList, childDirectories]
  | .file n rest, hw => by
    simp only [Entries.wellFormed, Bool.and_eq_true] at hw
    simp only [Entries.toList, childDirectories, Bool.false_and, Bool.false_eq_true,
      if_false]
    exact childDirectories_sorted env directory rest hw.2
  | .dir n sub rest, hw => by
    simp only [Entries.wellFormed, Bool.and_eq_true, List.all_eq_true,
      decide_eq_true_eq] at hw
    have ih := childDirectories_sorted env directory rest hw.2
    cases hres : env.isReservedDirectory (directory.join n) with
    | true =>
      simp only [Entries.toList, childDirectories, hres, Bool.not_true, Bool.and_false,
        Bool.false_eq_true, if_false]
      exact ih
    | false =>
      simp only [Entries.toList, childDirectories, hres, Bool.not_false, Bool.and_true,
        if_true, List.pairwise_cons]
      refine ⟨fun c hc => ?_, ih⟩
      obtain ⟨m, s, hm, rfl, _⟩ := childDirectories_names env directory rest c hc
      rw [Path.base_join, Path.base_join]
      exact hw.1.1 m (Entries.name_mem_of_mem_dirs hm)

theorem visitedBelow_eq_flatMap (env : Env) :
    ∀ (es : Entries) (directory : Path), Resolves env.fs directory es →
      visitedBelow env directory es
        = (childDirectories env directory es.toList).flatMap (visited env)
  | .nil, _, _ => rfl
  | .file n rest, directory, hr => by
    simp only [Entries.toList, childDirectories, visitedBelow, Bool.false_and,
      Bool.false_eq_true, if_false]
    exact visitedBelow_eq_flatMap env rest directory hr.rest_file
  | .dir n sub rest, directory, hr => by
    have ih := visitedBelow_eq_flatMap env rest directory hr.rest_dir
    cases hres : env.isReservedDirectory (directory.join n) with
    | true =>
      simp only [Entries.toList, childDirectories, visitedBelow, hres, Bool.not_true,
        Bool.and_false, Bool.false_eq_true, if_false, if_true]
      exact ih
    | false =>
      simp only [Entries.toList, childDirectories, visitedBelow, hres, Bool.not_false,
        Bool.and_true, if_true, Bool.false_eq_true, if_false, List.flatMap_cons,
        hr.head.visited, ih]

/-! ## The walk of a directory -/

theorem at_of_isDirectory {fs : Entries} {directory : Path} (hw : fs.wellFormed = true)
    (hd : isDirectory fs directory = true) :
    ∃ es, At fs directory es ∧ heightAt fs directory = es.height := by
  unfold isDirectory at hd
  cases hl : fs.lookup directory with
  | none => simp [hl] at hd
  | some st =>
    cases st with
    | file => simp [hl] at hd
    | dir es => exact ⟨es, At.of_lookup hw hl, by simp [heightAt, hl]⟩

/-- The walk of an existing, non-reserved directory publishes the events of the
visited directories, in the order visited. -/
theorem indexItems_visited (env : Env) (repositoryPath root : Path) (fuel : Nat)
    (hw : env.fs.wellFormed = true) (hd : isDirectory env.fs root = true)
    (hres : env.isReservedDirectory root = false) (hf : heightAt env.fs root < fuel) :
    indexItems env fuel repositoryPath root
      = some ((visited env root).map (nodeEvent env repositoryPath)) := by
  obtain ⟨es, hat, hh⟩ := at_of_isDirectory hw hd
  rw [hat.visited]
  exact indexItems_eq env repositoryPath fuel root es hat hres (by omega)

theorem foldl_send (events : List RepositoryEvent) :
    ∀ (ch : Chan), events.foldl Chan.send ch = { ch with sent := ch.sent ++ events } := by
  induction events with
  | nil => intro ch; simp
  | cons e es ih => intro ch; simp [List.foldl, ih, Chan.send]

theorem items_eq (env : Env) (fuel : Nat) (repository : Repository)
    (events : List RepositoryEvent)
    (h : indexItems env fuel repository.Path repository.Path = some events) :
    repository.Items env fuel = some ⟨1, events, true⟩ := by
  simp [Repository.Items, h, foldl_send, makeChan, Chan.close]

/-- The walk of each child of a visited directory, and the visited directories
at or below that child. -/
theorem child_walk (env : Env) (repositoryPath root : Path) (fuel : Nat)
    (hw : env.fs.wellFormed = true) (hd : isDirectory env.fs root = true)
    (hres : env.isReservedDirectory root = false) (hf : heightAt env.fs root < fuel)
    (D : Path) (hD : D ∈ visited env root) :
    ∃ esD pre post, At env.fs D esD ∧ env.isReservedDirectory D = false ∧
      esD.height < fuel ∧
      visited env root
        = pre ++ (D :: (getChildDirectories env D).flatMap (visited env)) ++ post ∧
      ∀ c ∈ getChildDirectories env D,
        indexItems env fuel repositoryPath c
          = some ((visited env c).map (nodeEvent env repositoryPath)) ∧
        ∀ p ∈ visited env root, (c <+: p ↔ p ∈ visited env c) := by
  obtain ⟨es, hat, hh⟩ := at_of_isDirectory hw hd
  obtain ⟨esD, pre, post, hatD, hresD, hhD, heq⟩ := visited_block hat hres hD
  have hflat : visitedBelow env D esD = (getChildDirectories env D).flatMap (visited env) := by
    rw [getChildDirectories, hatD.readDir]
    exact visitedBelow_eq_flatMap env esD D hatD.resolves
  refine ⟨esD, pre, post, hatD, hresD, by omega, by rw [heq, hflat], ?_⟩
  intro c hc
  rw [getChildDirectories, hatD.readDir] at hc
  obtain ⟨name, sub, hm, rfl, hresc⟩ := childDirectories_names env D esD _ hc
  have hatc : At env.fs (D.join name) sub := hatD.child hm
  have hsub := Entries.height_lt_of_mem_dirs hm
  refine ⟨?_, ?_⟩
  · rw [hatc.visited]
    exact indexItems_eq env repositoryPath fuel _ sub hatc hresc (by omega)
  · intro p hp
    constructor
    · intro hpre
      have hcroot : root <+: D.join name :=
        (root_le_of_mem_visited hD).trans (List.prefix_append _ _)
      exact mem_visited_of_reachable hatc
        (reachable_below hcroot (reachable_of_mem_visited hat hp) hpre)
    · exact root_le_of_mem_visited

/-- C4: the stream of `Items()` for an existing, non-reserved root directory
is closed after exactly the events of the visited directories, one event per
directory; the visited directories are, without repetition, exactly the
directories reachable from the root through non-reserved directories, so
there are as many events as such directories. -/
theorem items_one_event_per_directory (env : Env) (repository : Repository) (fuel : Nat)
    (hw : env.fs.wellFormed = true)
    (hd : isDirectory env.fs repository.Path = true)
    (hres : env.isReservedDirectory repository.Path = false)
    (hf : heightAt env.fs repository.Path < fuel) :
    ∃ ch, repository.Items env fuel = some ch ∧ ch.closed = true ∧
      ch.sent = (visited env repository.Path).map (nodeEvent env repository.Path) ∧
      (visited env repository.Path).Nodup ∧
      (∀ p, p ∈ visited env repository.Path ↔ Reachable env repository.Path p) ∧
      ch.sent.length = (visited env repository.Path).length := by
  obtain ⟨es, hat, _⟩ := at_of_isDirectory hw hd
  refine ⟨_, items_eq env fuel repository _
    (indexItems_visited env _ _ fuel hw hd hres hf), rfl, rfl, visited_nodup hat,
    mem_visited_iff_reachable hat, by simp⟩

/-- The walk of `repo` in the example with a document below `b`. -/
theorem items_one_event_per_directory_witness :
    ∃ ch, Repository.Items (standardEnv repoExampleDeep) 4 ⟨"id", ["repo"]⟩ = some ch ∧
      ch.closed = true ∧
      ch.sent = (visited (standardEnv repoExampleDeep) ["repo"]).map
        (nodeEvent (standardEnv repoExampleDeep) ["repo"]) ∧
      (visited (standardEnv repoExampleDeep) ["repo"]).Nodup ∧
      (∀ p, p ∈ visited (standardEnv repoExampleDeep) ["repo"]
        ↔ Reachable (standardEnv repoExampleDeep) ["repo"] p) ∧
      ch.sent.length = (visited (standardEnv repoExampleDeep) ["repo"]).length :=
  items_one_event_per_directory (standardEnv repoExampleDeep) ⟨"id", ["repo"]⟩ 4
    (by decide) (by decide) (by decide) (by decide)

/-- C5: in the walk of an existing, non-reserved directory, the event of a
visited directory A comes at a strictly smaller index than the event of any
visited directory B of which A is a proper ancestor. -/
theorem ancestor_event_first (env : Env) (repositoryPath root : Path) (fuel : Nat)
    (hw : env.fs.wellFormed = true) (hd : isDirectory env.fs root = true)
    (hres : env.isReservedDirectory root = false) (hf : heightAt env.fs root < fuel) :
    ∃ events, indexItems env fuel repositoryPath root = some events ∧
      events.length = (visited env root).length ∧
      ∀ (i j : Nat) (A B : Path),
        (visited env root)[i]? = some A → (visited env root)[j]? = some B →
        A <+: B → A ≠ B →
        i < j ∧ events[i]? = some (nodeEvent env repositoryPath A) ∧
          events[j]? = some (nodeEvent env repositoryPath B) := by
  obtain ⟨es, hat, _⟩ := at_of_isDirectory hw hd
  refine ⟨_, indexItems_visited env repositoryPath root fuel hw hd hres hf, by simp, ?_⟩
  intro i j A B hA hB hpre hne
  refine ⟨?_, by simp [List.getElem?_map, hA], by simp [List.getElem?_map, hB]⟩
  obtain ⟨hi, hiA⟩ := List.getElem?_eq_some.mp hA
  obtain ⟨hj, hjB⟩ := List.getElem?_eq_some.mp hB
  by_contra hlt
  rcases Nat.lt_or_ge j i with hji | hji
  · have := List.pairwise_iff_getElem.mp (visited_preorder hat) j i hj hi hji
    rw [hiA, hjB] at this
    exact this ⟨hpre, hne⟩
  · have hij : i = j := by omega
    subst hij
    rw [hiA] at hjB
    exact hne hjB

/-- The order of the events in the example with a document below `b`. -/
theorem ancestor_event_first_witness :
    ∃ events, indexItems (standardEnv repoExampleDeep) 4 ["repo"] ["repo"] = some events ∧
      events.length = (visited (standardEnv repoExampleDeep) ["repo"]).length ∧
      ∀ (i j : Nat) (A B : Path),
        (visited (standardEnv repoExampleDeep) ["repo"])[i]? = some A →
        (visited (standardEnv repoExampleDeep) ["repo"])[j]? = some B →
        A <+: B → A ≠ B →
        i < j ∧ events[i]? = some (nodeEvent (standardEnv repoExampleDeep) ["repo"] A) ∧
          events[j]? = some (nodeEvent (standardEnv repoExampleDeep) ["repo"] B) :=
  ancestor_event_first (standardEnv repoExampleDeep) ["repo"] ["repo"] 4
    (by decide) (by decide) (by decide) (by decide)

/-- C6: in the walk of a root directory, the event of a visited directory D is
followed at once by the walks of its child directories, one whole walk after
the other in the order of `getChildDirectories`, which is the lexicographic
order of their names; the walk of a child holds exactly the events of the
visited directories at or below that child. -/
theorem children_walked_in_blocks (env : Env) (repositoryPath root : Path) (fuel : Nat)
    (hw : env.fs.wellFormed = true) (hd : isDirectory env.fs root = true)
    (hres : env.isReservedDirectory root = false) (hf : heightAt env.fs root < fuel)
    (D : Path) (hD : D ∈ visited env root) :
    (∃ before after,
      indexItems env fuel repositoryPath root
        = some (before ++ nodeEvent env repositoryPath D ::
            (getChildDirectories env D).flatMap
              (fun c => (visited env c).map (nodeEvent env repositoryPath)) ++ after)) ∧
    (∀ c ∈ getChildDirectories env D,
      indexItems env fuel repositoryPath c
        = some ((visited env c).map (nodeEvent env repositoryPath)) ∧
      ∀ p ∈ visited env root, (c <+: p ↔ p ∈ visited env c)) ∧
    (getChildDirectories env D).Pairwise (fun a b => nameLt a.base b.base) := by
  obtain ⟨esD, pre, post, hatD, _, _, heq, hc⟩ :=
    child_walk env repositoryPath root fuel hw hd hres hf D hD
  refine ⟨⟨pre.map (nodeEvent env repositoryPath), post.map (nodeEvent env repositoryPath),
    ?_⟩, hc, ?_⟩
  · rw [indexItems_visited env repositoryPath root fuel hw hd hres hf, heq]
    simp [List.map_flatMap]
  · rw [getChildDirectories, hatD.readDir]
    exact childDirectories_sorted env D esD hatD.wf

/-- The children of `repo` in the example with a document below `b`. -/
theorem children_walked_in_blocks_witness :
    (∃ before after,
      indexItems (standardEnv repoExampleDeep) 4 ["repo"] ["repo"]
        = some (before ++ nodeEvent (standardEnv repoExampleDeep) ["repo"] ["repo"] ::
            (getChildDirectories (standardEnv repoExampleDeep) ["repo"]).flatMap
              (fun c => (visited (standardEnv repoExampleDeep) c).map
                (nodeEvent (standardEnv repoExampleDeep) ["repo"])) ++ after)) ∧
    (∀ c ∈ getChildDirectories (standardEnv repoExampleDeep) ["repo"],
      indexItems (standardEnv repoExampleDeep) 4 ["repo"] c
        = some ((visited (standardEnv repoExampleDeep) c).map
            (nodeEvent (standardEnv repoExampleDeep) ["repo"])) ∧
      ∀ p ∈ visited (standardEnv repoExampleDeep) ["repo"],
        (c <+: p ↔ p ∈ visited (standardEnv repoExampleDeep) c)) ∧
    (getChildDirectories (standardEnv repoExampleDeep) ["repo"]).Pairwise
      (fun a b => nameLt a.base b.base) :=
  children_walked_in_blocks (standardEnv repoExampleDeep) ["repo"] ["repo"] 4
    (by decide) (by decide) (by decide) (by decide) ["repo"] (by decide)

/-! ## Errors of the walk -/

/-- C7: when the root path of the repository does not exist, the stream of
`Items()` holds exactly one event, which carries the error and no item, and is
closed. -/
theorem items_missing_root (env : Env) (repository : Repository) (fuel : Nat)
    (hmissing : pathExists env.fs repository.Path = false) :
    repository.Items env (fuel + 1)
      = some ⟨1, [⟨none, some (.pathDoesNotExist repository.Path)⟩], true⟩ := by
  apply items_eq
  simp [indexItems, hmissing, NewEvent]

/-- The walk of a repository whose root `gone` does not exist. -/
theorem items_missing_root_witness :
    pathExists (standardEnv repoExample).fs ["gone"] = false ∧
    Repository.Items (standardEnv repoExample) (0 + 1) ⟨"id", ["gone"]⟩
      = some ⟨1, [⟨none, some (.pathDoesNotExist ["gone"])⟩], true⟩ :=
  ⟨by decide, items_missing_root (standardEnv repoExample) ⟨"id", ["gone"]⟩ 0 (by decide)⟩

/-- C8: for an existing path that is reserved, `indexItems` publishes exactly
one event, which carries the error and no item; nothing below the path is
walked, whatever the path contains. -/
theorem indexItems_reserved (env : Env) (repositoryPath itemPath : Path) (fuel : Nat)
    (hexists : pathExists env.fs itemPath = true)
    (hreserved : env.isReservedDirectory itemPath = true) :
    indexItems env (fuel + 1) repositoryPath itemPath
      = some [⟨none, some (.reservedName itemPath)⟩] := by
  simp [indexItems, hexists, hreserved, NewEvent]

/-- The walk of the files directory `repo/files`, which holds a subdirectory and a document. -/
theorem indexItems_reserved_witness :
    pathExists (standardEnv reservedExample).fs ["repo", "files"] = true ∧
    indexItems (standardEnv reservedExample) (5 + 1) ["repo"] ["repo", "files"]
      = some [⟨none, some (.reservedName ["repo", "files"])⟩] :=
  ⟨by decide,
    indexItems_reserved (standardEnv reservedExample) ["repo"] ["repo", "files"] 5
      (by decide) (by decide)⟩

/-! ## A route that cannot be built -/

theorem visitedBelow_withRoutes (env : Env)
    (fromItemPath fromItemDirectory : Path → Path → Except Error Route) :
    ∀ (es : Entries) (directory : Path),
      visitedBelow (withRoutes env fromItemPath fromItemDirectory) directory es
        = visitedBelow env directory es
  | .nil, _ => rfl
  | .file n rest, directory => by
    simp only [visitedBelow]
    exact visitedBelow_withRoutes env fromItemPath fromItemDirectory rest directory
  | .dir n sub rest, directory => by
    simp only [visitedBelow]
    rw [visitedBelow_withRoutes env fromItemPath fromItemDirectory rest directory,
      visitedBelow_withRoutes env fromItemPath fromItemDirectory sub (directory.join n)]
    rfl

theorem lookAheadBelow_withRoutes (env : Env)
    (fromItemPath fromItemDirectory : Path → Path → Except Error Route) :
    ∀ (es : Entries) (directory : Path),
      lookAheadBelow (withRoutes env fromItemPath fromItemDirectory) directory es
        = lookAheadBelow env directory es
  | .nil, _ => rfl
  | .file n rest, directory => by
    simp only [lookAheadBelow]
    rw [lookAheadBelow_withRoutes env fromItemPath fromItemDirectory rest directory]
    rfl
  | .dir n sub rest, directory => by
    simp only [lookAheadBelow]
    rw [lookAheadBelow_withRoutes env fromItemPath fromItemDirectory sub (directory.join n)]
    rfl

theorem visited_withRoutes (env : Env)
    (fromItemPath fromItemDirectory : Path → Path → Except Error Route) (root : Path) :
    visited (withRoutes env fromItemPath fromItemDirectory) root = visited env root := by
  unfold visited
  show (match env.fs.lookup root with
    | some (.dir es) =>
      root :: visitedBelow (withRoutes env fromItemPath fromItemDirectory) root es
    | _ => []) = _
  cases env.fs.lookup root with
  | none => rfl
  | some st =>
    cases st with
    | file => rfl
    | dir es => simp [visitedBelow_withRoutes]

theorem lookAheadAt_withRoutes (env : Env)
    (fromItemPath fromItemDirectory : Path → Path → Except Error Route) (directory : Path) :
    lookAheadAt (withRoutes env fromItemPath fromItemDirectory) directory
      = lookAheadAt env directory := by
  unfold lookAheadAt
  show (match env.fs.lookup directory with
    | some (.dir es) =>
      lookAheadBelow (withRoutes env fromItemPath fromItemDirectory) directory es
    | _ => false) = _
  cases env.fs.lookup directory with
  | none => rfl
  | some st =>
    cases st with
    | file => rfl
    | dir es => simp [lookAheadBelow_withRoutes]

theorem findMarkdownFileInDirectory_dir {env : Env} {directory markdownFilePath : Path}
    (h : findMarkdownFileInDirectory env directory = some markdownFilePath) :
    markdownFilePath.dir = directory := by
  unfold findMarkdownFileInDirectory at h
  rw [Option.map_eq_some'] at h
  obtain ⟨entry, _, rfl⟩ := h
  exact Path.dir_join _ _

/-- The event of a directory other than `D` does not depend on the routes of
`D` and of the files directly inside `D`. -/
theorem nodeEvent_withRoutes (env : Env) (repositoryPath D p : Path)
    (fromItemPath fromItemDirectory : Path → Path → Except Error Route)
    (hpath : ∀ r f, f.dir ≠ D → fromItemPath r f = env.newRouteFromItemPath r f)
    (hdirectory : ∀ r d, d ≠ D → fromItemDirectory r d = env.newRouteFromItemDirectory r d)
    (hp : p ≠ D) :
    nodeEvent (withRoutes env fromItemPath fromItemDirectory) repositoryPath p
      = nodeEvent env repositoryPath p := by
  unfold nodeEvent
  rw [lookAheadAt_withRoutes]
  show (match findMarkdownFileInDirectory env p with
    | some markdownFilePath =>
      eventOf (newItemFromFile (withRoutes env fromItemPath fromItemDirectory)
        repositoryPath p markdownFilePath)
    | none =>
      if lookAheadAt env p then
        eventOf (newVirtualItem (withRoutes env fromItemPath fromItemDirectory)
          repositoryPath p)
      else eventOf (newFileCollectionItem (withRoutes env fromItemPath fromItemDirectory)
          repositoryPath p)) = _
  cases hmd : findMarkdownFileInDirectory env p with
  | some md =>
    have hdir : md.dir ≠ D := by rw [findMarkdownFileInDirectory_dir hmd]; exact hp
    simp only [newItemFromFile, withRoutes, hpath repositoryPath md hdir]
  | none =>
    simp only [newVirtualItem, newFileCollectionItem, withRoutes,
      hdirectory repositoryPath p hp]

/-- The event of a directory whose route cannot be built carries the error of
the item constructor: the path that was asked for and the answer of the route
constructor. -/
theorem nodeEvent_of_routeFailsWith (env : Env) (repositoryPath D path : Path)
    (cause : Error) (hfail : RouteFailsWith env repositoryPath D path cause) :
    nodeEvent env repositoryPath D
      = NewEvent none (some (.cannotCreateItem path cause)) := by
  unfold RouteFailsWith at hfail
  unfold nodeEvent
  cases hmd : findMarkdownFileInDirectory env D with
  | some md =>
    rw [hmd] at hfail
    obtain ⟨hpath, hroute⟩ := hfail
    simp [newItemFromFile, hroute, eventOf, hpath]
  | none =>
    rw [hmd] at hfail
    obtain ⟨hpath, hroute⟩ := hfail
    cases lookAheadAt env D <;>
      simp [newVirtualItem, newFileCollectionItem, hroute, eventOf, hpath]

/-- C9: when the route of the item of a visited directory D cannot be built
(the route constructor answers the error `cause` for `path`, the markdown file
of D or else D itself), the walk of D publishes one event for D, which carries
no item and the error "cannot create an item for `path`" with that `cause`,
and then the walks of all child directories of D; and in the walk of the root
every event other than the event of D is the same, at the same place, whatever
the route constructors answer for D: a failed node removes and reorders
nothing. -/
theorem route_failure_is_local (env : Env) (repositoryPath root : Path) (fuel : Nat)
    (hw : env.fs.wellFormed = true) (hd : isDirectory env.fs root = true)
    (hres : env.isReservedDirectory root = false) (hf : heightAt env.fs root < fuel)
    (D : Path) (hD : D ∈ visited env root) (path : Path) (cause : Error)
    (hfail : RouteFailsWith env repositoryPath D path cause) :
    indexItems env fuel repositoryPath D
      = some (⟨none, some (.cannotCreateItem path cause)⟩ ::
          (getChildDirectories env D).flatMap
            (fun c => (visited env c).map (nodeEvent env repositoryPath))) ∧
    (path = D ∨ path.dir = D) ∧
    (∀ c ∈ getChildDirectories env D,
      indexItems env fuel repositoryPath c
        = some ((visited env c).map (nodeEvent env repositoryPath))) ∧
    indexItems env fuel repositoryPath root
      = some ((visited env root).map (nodeEvent env repositoryPath)) ∧
    nodeEvent env repositoryPath D = ⟨none, some (.cannotCreateItem path cause)⟩ ∧
    ∀ (fromItemPath fromItemDirectory : Path → Path → Except Error Route),
      (∀ r f, f.dir ≠ D → fromItemPath r f = env.newRouteFromItemPath r f) →
      (∀ r d, d ≠ D → fromItemDirectory r d = env.newRouteFromItemDirectory r d) →
      ∃ event,
        indexItems (withRoutes env fromItemPath fromItemDirectory) fuel repositoryPath root
          = some ((visited env root).map
              (fun p => if p = D then event else nodeEvent env repositoryPath p)) := by
  have herr := nodeEvent_of_routeFailsWith env repositoryPath D path cause hfail
  obtain ⟨esD, pre, post, hatD, hresD, hhD, heq, hc⟩ :=
    child_walk env repositoryPath root fuel hw hd hres hf D hD
  refine ⟨?_, ?_, fun c hcm => (hc c hcm).1,
    indexItems_visited env repositoryPath root fuel hw hd hres hf, herr, ?_⟩
  · rw [indexItems_eq env repositoryPath fuel D esD hatD hresD hhD, List.map_cons, herr]
    have hflat : visitedBelow env D esD
        = (getChildDirectories env D).flatMap (visited env) := by
      rw [getChildDirectories, hatD.readDir]
      exact visitedBelow_eq_flatMap env esD D hatD.resolves
    rw [hflat, List.map_flatMap]
    rfl
  · unfold RouteFailsWith at hfail
    cases hmd : findMarkdownFileInDirectory env D with
    | some md =>
      rw [hmd] at hfail
      exact Or.inr (by rw [hfail.1]; exact findMarkdownFileInDirectory_dir hmd)
    | none =>
      rw [hmd] at hfail
      exact Or.inl hfail.1
  · intro fromItemPath fromItemDirectory hpath hdirectory
    refine ⟨nodeEvent (withRoutes env fromItemPath fromItemDirectory) repositoryPath D, ?_⟩
    rw [indexItems_visited (withRoutes env fromItemPath fromItemDirectory) repositoryPath
      root fuel hw hd hres hf, visited_withRoutes]
    congr 1
    apply List.map_congr_left
    intro p _
    by_cases hp : p = D
    · simp [hp]
    · simp only [hp, if_false]
      exact nodeEvent_withRoutes env repositoryPath D p fromItemPath fromItemDirectory
        hpath hdirectory hp

/-- The walk of `repo` by a repository rooted at `repo`, as `Items()` starts
it, when the route constructor rejects `repo/b`: the event of `repo/b` carries
that answer and the walk of `repo/b/sub` follows; and the walk of `repo` for a
repository path `repo/a`, under which `repo/b` does not lie. -/
theorem route_failure_is_local_witness :
    (RouteFailsWith (rejectingEnv repoExampleDeep) ["repo"] ["repo", "b"] ["repo", "b"]
        (.notInRepository ["repo"] ["repo", "b"]) ∧
      indexItems (rejectingEnv repoExampleDeep) 4 ["repo"] ["repo", "b"]
        = some (⟨none, some (.cannotCreateItem ["repo", "b"]
              (.notInRepository ["repo"] ["repo", "b"]))⟩ ::
            (getChildDirectories (rejectingEnv repoExampleDeep) ["repo", "b"]).flatMap
              (fun c => (visited (rejectingEnv repoExampleDeep) c).map
                (nodeEvent (rejectingEnv repoExampleDeep) ["repo"]))) ∧
      (["repo", "b"] = ["repo", "b"] ∨ Path.dir ["repo", "b"] = ["repo", "b"]) ∧
      (∀ c ∈ getChildDirectories (rejectingEnv repoExampleDeep) ["repo", "b"],
        indexItems (rejectingEnv repoExampleDeep) 4 ["repo"] c
          = some ((visited (rejectingEnv repoExampleDeep) c).map
              (nodeEvent (rejectingEnv repoExampleDeep) ["repo"]))) ∧
      indexItems (rejectingEnv repoExampleDeep) 4 ["repo"] ["repo"]
        = some ((visited (rejectingEnv repoExampleDeep) ["repo"]).map
            (nodeEvent (rejectingEnv repoExampleDeep) ["repo"])) ∧
      nodeEvent (rejectingEnv repoExampleDeep) ["repo"] ["repo", "b"]
        = ⟨none, some (.cannotCreateItem ["repo", "b"]
            (.notInRepository ["repo"] ["repo", "b"]))⟩ ∧
      ∀ (fromItemPath fromItemDirectory : Path → Path → Except Error Route),
        (∀ r f, f.dir ≠ ["repo", "b"] →
          fromItemPath r f = (rejectingEnv repoExampleDeep).newRouteFromItemPath r f) →
        (∀ r d, d ≠ ["repo", "b"] →
          fromItemDirectory r d
            = (rejectingEnv repoExampleDeep).newRouteFromItemDirectory r d) →
        ∃ event,
          indexItems (withRoutes (rejectingEnv repoExampleDeep) fromItemPath fromItemDirectory)
              4 ["repo"] ["repo"]
            = some ((visited (rejectingEnv repoExampleDeep) ["repo"]).map
                (fun p => if p = ["repo", "b"] then event
                  else nodeEvent (rejectingEnv repoExampleDeep) ["repo"] p))) ∧
    (RouteFailsWith (standardEnv repoExampleDeep) ["repo", "a"] ["repo", "b"] ["repo", "b"]
        (.notInRepository ["repo", "a"] ["repo", "b"]) ∧
      indexItems (standardEnv repoExampleDeep) 4 ["repo", "a"] ["repo", "b"]
        = some (⟨none, some (.cannotCreateItem ["repo", "b"]
              (.notInRepository ["repo", "a"] ["repo", "b"]))⟩ ::
            (getChildDirectories (standardEnv repoExampleDeep) ["repo", "b"]).flatMap
              (fun c => (visited (standardEnv repoExampleDeep) c).map
                (nodeEvent (standardEnv repoExampleDeep) ["repo", "a"])))) :=
  ⟨⟨⟨rfl, rfl⟩,
      route_failure_is_local (rejectingEnv repoExampleDeep) ["repo"] ["repo"] 4
        (by decide) (by decide) (by decide) (by decide) ["repo", "b"] (by decide)
        ["repo", "b"] (.notInRepository ["repo"] ["repo", "b"]) ⟨rfl, rfl⟩⟩,
    ⟨⟨rfl, rfl⟩,
      (route_failure_is_local (standardEnv repoExampleDeep) ["repo", "a"] ["repo"] 4
        (by decide) (by decide) (by decide) (by decide) ["repo", "b"] (by decide)
        ["repo", "b"] (.notInRepository ["repo", "a"] ["repo", "b"]) ⟨rfl, rfl⟩).1⟩⟩

/-! ## The stream of changes -/

/-- C3 as stated fails: the stream that `Changed()` returns is not closed. -/
theorem changed_not_closed :
    ¬ ((Repository.Changed ⟨"id", ["repo"]⟩).closed = true ∧
        (Repository.Changed ⟨"id", ["repo"]⟩).sent = []) := by
  decide

/-- C3, amended: the stream that `Changed()` returns holds no event and is
open, not closed: it is a fresh channel of capacity one on which nothing has
been sent and which nothing has closed. -/
theorem changed_open_and_empty (repository : Repository) :
    repository.Changed.sent = [] ∧ repository.Changed.closed = false ∧
      repository.Changed = makeChan 1 :=
  ⟨rfl, rfl, rfl⟩

/-! ## Virtual and collection items on the examples of the spec -/

/-- C1 at the example of the spec: `repo/b` holds only `image.png`; the
look-ahead answers `false`, and `indexItems` publishes the item of
`newFileCollectionItem`, whose files come from a scan of all of `repo/b` and
include `image.png`; the item of `newVirtualItem` would have no files. -/
theorem indexItems_loose_file_only :
    directoryDoesNotContainsItems (standardEnv repoExample) 2 ["repo", "b"] = some false ∧
    indexItems (standardEnv repoExample) 2 ["repo"] ["repo", "b"]
      = some [eventOf (newFileCollectionItem (standardEnv repoExample) ["repo"] ["repo", "b"])] ∧
    indexItems (standardEnv repoExample) 2 ["repo"] ["repo", "b"]
      ≠ some [eventOf (newVirtualItem (standardEnv repoExample) ["repo"] ["repo", "b"])] ∧
    eventOf (newFileCollectionItem (standardEnv repoExample) ["repo"] ["repo", "b"])
      = NewEvent (some ⟨⟨["b"]⟩, .textContent "# b" ⟨["b"]⟩,
          [⟨⟨["b"]⟩, .fileContent ["repo", "b", "image.png"] ⟨["b"]⟩⟩]⟩) none ∧
    eventOf (newVirtualItem (standardEnv repoExample) ["repo"] ["repo", "b"])
      = NewEvent (some ⟨⟨["b"]⟩, .textContent "# b" ⟨["b"]⟩, []⟩) none := by
  refine ⟨by decide, by decide, by decide, by decide, by decide⟩

/-- C2 at the example of the spec: `repo/b` holds `image.png` and
`sub/doc.md`; the look-ahead answers `true`, and `indexItems` publishes for
`repo/b` the item of `newVirtualItem`, without files, and not the item of
`newFileCollectionItem`, whose files would include `image.png`. -/
theorem indexItems_document_below :
    directoryDoesNotContainsItems (standardEnv repoExampleDeep) 3 ["repo", "b"] = some true ∧
    (indexItems (standardEnv repoExampleDeep) 3 ["repo"] ["repo", "b"]).map List.head?
      = some (some (eventOf
          (newVirtualItem (standardEnv repoExampleDeep) ["repo"] ["repo", "b"]))) ∧
    (indexItems (standardEnv repoExampleDeep) 3 ["repo"] ["repo", "b"]).map List.head?
      ≠ some (some (eventOf
          (newFileCollectionItem (standardEnv repoExampleDeep) ["repo"] ["repo", "b"]))) ∧
    eventOf (newVirtualItem (standardEnv repoExampleDeep) ["repo"] ["repo", "b"])
      = NewEvent (some ⟨⟨["b"]⟩, .textContent "# b" ⟨["b"]⟩, []⟩) none ∧
    eventOf (newFileCollectionItem (standardEnv repoExampleDeep) ["repo"] ["repo", "b"])
      = NewEvent (some ⟨⟨["b"]⟩, .textContent "# b" ⟨["b"]⟩,
          [⟨⟨["b"]⟩, .fileContent ["repo", "b", "image.png"] ⟨["b"]⟩⟩,
            ⟨⟨["b", "sub"]⟩, .fileContent ["repo", "b", "sub", "doc.md"] ⟨["b", "sub"]⟩⟩]⟩)
        none := by
  refine ⟨by decide, by decide, by decide, by decide, by decide⟩

/-! ## The look-ahead is decided by the first directory or document -/

theorem scanEntries_find (env : Env) (recurse : Path → Option Bool) (directory : Path) :
    ∀ (entries : List DirEntry),
      scanEntries env recurse directory entries
        = match entries.find? (isDirOrDocument env directory) with
          | none => some false
          | some entry =>
            if entry.isDir then
              if env.isReservedDirectory (directory.join entry.name) then some true
              else recurse (directory.join entry.name)
            else some true
  | [] => rfl
  | entry :: rest => by
    cases hd : entry.isDir with
    | true => simp [scanEntries, List.find?, isDirOrDocument, hd]
    | false =>
      cases hm : env.isMarkdownFile (directory.join entry.name) with
      | true => simp [scanEntries, List.find?, isDirOrDocument, hd, hm]
      | false =>
        simp only [scanEntries, List.find?, isDirOrDocument, hd, hm, Bool.or_self,
          Bool.false_eq_true, if_false]
        exact scanEntries_find env recurse directory rest

theorem find?_append_first {α : Type} (p : α → Bool) (before after : List α) (x : α)
    (hb : ∀ e ∈ before, p e = false) (hx : p x = true) :
    (before ++ x :: after).find? p = some x := by
  induction before with
  | nil => simp [List.find?, hx]
  | cons b bs ih =>
    have hb0 : p b = false := hb b (List.mem_cons_self _ _)
    simp only [List.cons_append, List.find?, hb0]
    exact ih (fun e he => hb e (List.mem_cons_of_mem _ he))

/-- C10: with enough fuel `directoryDoesNotContainsItems` returns, and its
result is decided by the first entry of the listing that is a directory or a
document file: `true` for a document file, `true` for a reserved directory,
the recursive result for a non-reserved directory, `false` if there is no such
entry; the entries after that first one do not change the result. -/
theorem directoryDoesNotContainsItems_first_entry (env : Env) (directory : Path)
    (es : Entries) (fuel : Nat) (hw : env.fs.wellFormed = true)
    (hl : env.fs.lookup directory = some (.dir es)) (hf : es.height < fuel) :
    (∃ b, directoryDoesNotContainsItems env fuel directory = some b) ∧
    directoryDoesNotContainsItems env fuel directory
      = (match (readDir env.fs directory).find? (isDirOrDocument env directory) with
        | none => some false
        | some entry =>
          if entry.isDir then
            if env.isReservedDirectory (directory.join entry.name) then some true
            else directoryDoesNotContainsItems env (fuel - 1) (directory.join entry.name)
          else some true) ∧
    (∀ (recurse : Path → Option Bool) (before after after2 : List DirEntry)
        (entry : DirEntry),
      (∀ e ∈ before, isDirOrDocument env directory e = false) →
      isDirOrDocument env directory entry = true →
      scanEntries env recurse directory (before ++ entry :: after)
        = scanEntries env recurse directory (before ++ entry :: after2)) := by
  refine ⟨⟨_, directoryDoesNotContainsItems_eq env fuel directory es (At.of_lookup hw hl) hf⟩,
    ?_, ?_⟩
  · cases fuel with
    | zero => omega
    | succ n =>
      simp only [directoryDoesNotContainsItems, Nat.add_sub_cancel]
      exact scanEntries_find env _ directory _
  · intro recurse before after after2 entry hb he
    rw [scanEntries_find, scanEntries_find, find?_append_first _ _ _ _ hb he,
      find?_append_first _ _ _ _ hb he]

/-- The example of C10: the first subdirectory is empty, the second holds a document, and the look-ahead answers `false`. -/
theorem directoryDoesNotContainsItems_first_entry_witness :
    directoryDoesNotContainsItems (standardEnv firstEmptySecondDocument) 3 ["d"] = some false ∧
    ((∃ b, directoryDoesNotContainsItems (standardEnv firstEmptySecondDocument) 3 ["d"]
        = some b) ∧
    directoryDoesNotContainsItems (standardEnv firstEmptySecondDocument) 3 ["d"]
      = (match (readDir (standardEnv firstEmptySecondDocument).fs ["d"]).find?
            (isDirOrDocument (standardEnv firstEmptySecondDocument) ["d"]) with
        | none => some false
        | some entry =>
          if entry.isDir then
            if (standardEnv firstEmptySecondDocument).isReservedDirectory
                (Path.join ["d"] entry.name) then some true
            else directoryDoesNotContainsItems (standardEnv firstEmptySecondDocument) (3 - 1)
              (Path.join ["d"] entry.name)
          else some true) ∧
    (∀ (recurse : Path → Option Bool) (before after after2 : List DirEntry)
        (entry : DirEntry),
      (∀ e ∈ before, isDirOrDocument (standardEnv firstEmptySecondDocument) ["d"] e = false) →
      isDirOrDocument (standardEnv firstEmptySecondDocument) ["d"] entry = true →
      scanEntries (standardEnv firstEmptySecondDocument) recurse ["d"]
          (before ++ entry :: after)
        = scanEntries (standardEnv firstEmptySecondDocument) recurse ["d"]
          (before ++ entry :: after2))) :=
  ⟨by decide,
    directoryDoesNotContainsItems_first_entry (standardEnv firstEmptySecondDocument) ["d"]
      (.dir "a" .nil (.dir "b" (.file "doc.md" .nil) .nil)) 3 (by decide) (by decide)
      (by decide)⟩

end Allmark
